import Mathlib

/-!
Verification of the animochat chat-server core: a shallow embedding of the
presence registry (userStore), the room lifecycle handler (roomHandler),
the message lifecycle handler (messageHandler), the music sync handler
(musicHandler) and the Redis-backed room store (redis-impl), together with
theorems settling the specification claims about them.

Conventions of the embedding:
- JavaScript Maps become association lists (`alGet` / `alSet` / `alErase`),
  which preserve the insertion-order and delete-on-empty behaviour the
  claims are about.
- The Redis message list is a Lean list whose HEAD is the NEWEST message
  (lpush prepends; ltrim 0 99 keeps the first hundred entries).
- Wall-clock instants (`Date.now()`) are natural-number milliseconds passed
  in explicitly; playback positions are rationals (seconds).
- Network effects (`ws.send`, `broadcastToRoom`) become `Event` values
  returned alongside the new state.
-/

namespace AnimoChat

abbrev UserId := String
abbrev RoomId := String
abbrev ConnId := Nat

/-! ## Messages and reactions (src/types.ts) -/

/-- A reaction, from types.ts: `{ message_id, user_id, emoji: string | null }`.
JavaScript `null` becomes `none`. -/
structure Reaction where
  message_id : String
  user_id : String
  emoji : Option String
deriving DecidableEq, Repr

/-- A chat message, keeping the fields of types.ts `Message` that the room
store and handlers read or write.  `type` is `none` for a normal message
(the code treats a missing type as the text type `"text"`). -/
structure Message where
  id : String
  sender : String
  content : String
  type : Option String := none
  edited : Bool := false
  reactions : List Reaction := []
  senderNickname : Option String := none
deriving DecidableEq, Repr

/-- JavaScript `s.slice(0, n)` on a string: the first `n` characters. -/
def sliceTo (s : String) (n : Nat) : String :=
  String.mk (s.data.take n)

/-! ## Capped message store (redis-impl.ts `addMessage`) -/

/-- `addMessage` of RedisChatRoomRepository: `lpush` the serialized message,
then `ltrim key 0 99`.  The head of the list is the newest message; the trim
keeps the hundred most recent entries, evicting from the tail (oldest). -/
def addMessage (message : Message) (msgs : List Message) : List Message :=
  List.take 100 (message :: msgs)

/-- A sequence of sends applied in order to a starting retained list. -/
def runSends (sends : List Message) (start : List Message) : List Message :=
  sends.foldl (fun acc m => addMessage m acc) start

/-! ## Reaction upsert-or-remove (redis-impl.ts `updateReaction`) -/

/-- JavaScript truthiness of the `emoji` field: `null` (here `none`) and the
empty string are falsy. -/
def emojiTruthy : Option String → Bool
  | none => false
  | some s => !(s == "")

/-- `findIndex((r) => r.user_id === reaction.user_id)` on a reaction list:
index of the first reaction by the given user. -/
def findUserIdx (u : String) : List Reaction → Option Nat
  | [] => none
  | r :: rest =>
    if r.user_id == u then some 0 else (findUserIdx u rest).map (· + 1)

/-- The body of `updateReaction` acting on one message's reaction list,
written exactly with the index found by `findUserIdx`: replace at the index
(`updated[existing] = reaction`), remove the index
(`reps.filter((_, i) => i !== existing)`), append, or no-op. -/
def applyReactionIdx (reaction : Reaction) (reps : List Reaction) : List Reaction :=
  match findUserIdx reaction.user_id reps with
  | some i =>
    if emojiTruthy reaction.emoji then reps.set i reaction
    else reps.eraseIdx i
  | none =>
    if emojiTruthy reaction.emoji then reps ++ [reaction] else reps

/-- Structural form of `applyReactionIdx`: replace-or-remove the first
reaction by the user, else append (proved equal in
`applyReactionIdx_eq_applyReaction`). -/
def applyReaction (reaction : Reaction) : List Reaction → List Reaction
  | [] => if emojiTruthy reaction.emoji then [reaction] else []
  | r :: rest =>
    if r.user_id == reaction.user_id then
      if emojiTruthy reaction.emoji then reaction :: rest else rest
    else r :: applyReaction reaction rest

/-- `updateReaction` of RedisChatRoomRepository at the room level: scan the
retained list (head = newest) for the message with the reaction's
`message_id`, rewrite its reaction list in place, and report whether a
message was found. -/
def updateReaction (reaction : Reaction) : List Message → List Message × Bool
  | [] => ([], false)
  | msg :: rest =>
    if msg.id == reaction.message_id then
      ({ msg with reactions := applyReactionIdx reaction msg.reactions } :: rest, true)
    else
      let p := updateReaction reaction rest
      (msg :: p.1, p.2)

/-! ## Edit and delete (redis-impl.ts `editMessage`, `markMessageAsDeleted`) -/

/-- `editMessage`: scan for the message id; overwrite content and set
`edited = true` on the first match; report whether found. -/
def editMessage (messageId newContent : String) : List Message → List Message × Bool
  | [] => ([], false)
  | msg :: rest =>
    if msg.id == messageId then
      ({ msg with content := newContent, edited := true } :: rest, true)
    else
      let p := editMessage messageId newContent rest
      (msg :: p.1, p.2)

/-- `markMessageAsDeleted`: scan for the message id; set `type := "deleted"`
on the first match. -/
def markMessageAsDeleted (messageId : String) : List Message → List Message × Bool
  | [] => ([], false)
  | msg :: rest =>
    if msg.id == messageId then
      ({ msg with type := some "deleted" } :: rest, true)
    else
      let p := markMessageAsDeleted messageId rest
      (msg :: p.1, p.2)

/-- First retained message carrying the given id (the one the scanning
store operations locate). -/
def firstMsgWithId (mid : String) : List Message → Option Message
  | [] => none
  | msg :: rest => if msg.id == mid then some msg else firstMsgWithId mid rest

/-! ## Association lists: the embedding of JavaScript `Map` -/

/-- `Map.get`: value of the first entry with the given key. -/
def alGet [DecidableEq κ] (k : κ) : List (κ × β) → Option β
  | [] => none
  | (a, b) :: rest => if a = k then some b else alGet k rest

/-- `Map.set`: replace the value in place if the key is present (keys keep
their insertion position), else append a new entry. -/
def alSet [DecidableEq κ] (k : κ) (v : β) : List (κ × β) → List (κ × β)
  | [] => [(k, v)]
  | (a, b) :: rest => if a = k then (k, v) :: rest else (a, b) :: alSet k v rest

/-- `Map.delete`: drop the first entry with the given key. -/
def alErase [DecidableEq κ] (k : κ) : List (κ × β) → List (κ × β)
  | [] => []
  | (a, b) :: rest => if a = k then rest else (a, b) :: alErase k rest

/-! ## Presence registry (userStore.ts) -/

/-- The two process-local maps of userStore.ts:
`rooms : roomId -> (userId -> WebSocket[])` and
`socketToInfo : WebSocket -> { userId, roomId }`.  Sockets are identified by
a numeric connection id. -/
structure UserStore where
  rooms : List (RoomId × List (UserId × List ConnId))
  socketToInfo : List (ConnId × UserId × RoomId)
deriving DecidableEq, Repr

def emptyStore : UserStore := ⟨[], []⟩

/-- `addUserToRoom(ws, userId, roomId)`: create the per-room and per-user
entries if missing, push the socket, and record the socket's info. -/
def addUserToRoom (c : ConnId) (userId : UserId) (roomId : RoomId)
    (s : UserStore) : UserStore :=
  let roomUsers := (alGet roomId s.rooms).getD []
  let userSockets := (alGet userId roomUsers).getD []
  let roomUsers1 := alSet userId (userSockets ++ [c]) roomUsers
  { rooms := alSet roomId roomUsers1 s.rooms
    socketToInfo := alSet c (userId, roomId) s.socketToInfo }

/-- `removeUser(ws)`: look the socket up in `socketToInfo`; filter it out of
its user's socket list; delete the user entry when the list empties, and the
room entry when the user map empties.  When the room or user entry is
missing the function returns early (without touching `socketToInfo`, as in
the source). -/
def removeUser (c : ConnId) (s : UserStore) : UserStore :=
  match alGet c s.socketToInfo with
  | none => s
  | some (userId, roomId) =>
    match alGet roomId s.rooms with
    | none => s
    | some roomUsers =>
      match alGet userId roomUsers with
      | none => s
      | some userSockets =>
        let filteredSockets := userSockets.filter (fun sock => sock ≠ c)
        let roomUsers1 :=
          if filteredSockets.isEmpty then alErase userId roomUsers
          else alSet userId filteredSockets roomUsers
        let rooms1 :=
          if roomUsers1.isEmpty then alErase roomId s.rooms
          else alSet roomId roomUsers1 s.rooms
        { rooms := rooms1, socketToInfo := alErase c s.socketToInfo }

/-- `getOnlineUsersInRoom(roomId)`: the keys of the room's user map (empty
when the room has no entry). -/
def getOnlineUsersInRoom (roomId : RoomId) (s : UserStore) : List UserId :=
  ((alGet roomId s.rooms).getD []).map (fun p => p.1)

/-! ## Music state (types.ts `MusicInfo`, handlers in musicHandler.ts) -/

structure Song where
  name : String
  url : String
deriving DecidableEq, Repr

inductive MusicState
  | playing
  | paused
deriving DecidableEq, Repr

/-- types.ts `MusicInfo`.  `skipVotes` is a list of `{ userId }` wrappers in
the source, embedded as the list of user ids; `playTime` is the wall-clock
anchor in milliseconds. -/
structure MusicInfo where
  currentSong : Option Song := none
  progress : ℚ := 0
  state : MusicState := MusicState.paused
  playTime : Option Nat := none
  queue : List Song := []
  skipVotes : List UserId := []
  finishedUsers : List UserId := []
deriving DecidableEq, Repr

/-! ## Outbound effects -/

/-- One outbound packet, as produced by `ws.send` / `broadcastToRoom`. -/
inductive Event
  | participantJoined (userId : UserId) (nickname : String)
  | offline (userId : UserId)
  | musicSync (info : MusicInfo)
  | musicPlay (currentTime : ℚ)
  | messageAck (messageId : String)
  | messageBroadcast (m : Message) (sender : String)
  | editBroadcast (message_id : String) (new_content : String) (sender : String)
deriving DecidableEq, Repr

def isJoinEvent : Event → Bool
  | Event.participantJoined _ _ => true
  | _ => false

def isOfflineEvent : Event → Bool
  | Event.offline _ => true
  | _ => false

/-! ## Room records (the durable store's view used by roomHandler) -/

/-- The fields of `getRoomInfo` that the room lifecycle handler reads.
`max_participants` is optional because the handler applies the `?? 2`
default. -/
structure RoomRec where
  max_participants : Option Nat := none
  closed : Bool := false
deriving DecidableEq, Repr

/-! ## Room lifecycle handler (roomHandler, src/unnamed/part_012) -/

/-- JavaScript `x || d` for an optional string: `null` and the empty string
fall back to the default. -/
def jsOr (s : Option String) (d : String) : String :=
  match s with
  | none => d
  | some v => if v == "" then d else v

inductive ConnectResult
  | noIp
  | rejectedBanned
  | rejectedRoomFull
  | admitted
deriving DecidableEq, Repr

structure ConnectOutcome where
  result : ConnectResult
  store : UserStore
  participantAdded : Bool
  directSends : List Event
  broadcasts : List Event
deriving DecidableEq, Repr

/-- The music block of `handleUserConnected`: a one-time `music_sync` with
the full stored state, then — when the state is `"playing"` — a
`music_play` with `progress + (now - (playTime || 0)) / 1000`. -/
def musicSyncSends (now : Nat) : Option MusicInfo → List Event
  | none => []
  | some info =>
    Event.musicSync info ::
      (if info.state = MusicState.playing then
        [Event.musicPlay (info.progress + (((now : ℚ) - ((info.playTime.getD 0 : Nat) : ℚ)) / 1000))]
      else [])

/-- `handleUserConnected` of src/unnamed/part_012.  Store reads
(ban status, room info, ghost flag, participant membership, nickname, music
info) are passed in as parameters; the room is auto-created before the info
is read, so `maxParticipants?` is the value after any auto-creation.
Returns the admission result, the updated presence registry, whether a
participant record was created, the packets sent directly to the new socket,
and the packets broadcast to the room. -/
def handleUserConnected (c : ConnId) (userId : UserId) (chatId : RoomId)
    (ipPresent : Bool) (banned : Bool) (maxParticipants? : Option Nat)
    (isGhost : Bool) (isParticipant : Bool) (nickname? : Option String)
    (musicInfo : Option MusicInfo) (now : Nat) (s : UserStore) : ConnectOutcome :=
  if !ipPresent then ⟨ConnectResult.noIp, s, false, [], []⟩
  else if banned then ⟨ConnectResult.rejectedBanned, s, false, [], []⟩
  else
    let maxParticipants := maxParticipants?.getD 2
    let userIds := (getOnlineUsersInRoom chatId s).dedup
    if !(userIds.contains userId) && decide (userIds.length ≥ maxParticipants)
        && !isGhost then
      ⟨ConnectResult.rejectedRoomFull, s, false, [], []⟩
    else
      let s1 := addUserToRoom c userId chatId s
      let sends := musicSyncSends now musicInfo
      if isGhost then ⟨ConnectResult.admitted, s1, !isParticipant, sends, []⟩
      else
        let nickname := jsOr nickname? "Someone"
        ⟨ConnectResult.admitted, s1, !isParticipant, sends,
          [Event.participantJoined userId nickname]⟩

structure DisconnectOutcome where
  store : UserStore
  offlineBroadcast : Bool
  roomDeleted : Bool
deriving DecidableEq, Repr

/-- `handleDisconnect` of src/unnamed/part_012: remove the socket from the
registry; broadcast `offline` exactly when the user no longer appears among
the room's online users; delete the room from the durable store exactly
when the room is now empty and is not a group chat
(`max_participants ?? 2 > 2`).  The room's `closed` flag is never read. -/
def handleDisconnect (c : ConnId) (userId : UserId) (chatId : RoomId)
    (info : RoomRec) (s : UserStore) : DisconnectOutcome :=
  let maxParticipants := info.max_participants.getD 2
  let isGroupChat : Bool := decide (maxParticipants > 2)
  let s1 := removeUser c s
  let stillOnline := (getOnlineUsersInRoom chatId s1).contains userId
  let onlineUsers := getOnlineUsersInRoom chatId s1
  { store := s1
    offlineBroadcast := !stillOnline
    roomDeleted := onlineUsers.isEmpty && !isGroupChat }

/-- `handleDisconnectPacket`: the explicit disconnect-intent packet marks a
non-group room closed (group chats ignore it). -/
def handleDisconnectPacket (info : RoomRec) : RoomRec :=
  if info.max_participants.getD 2 > 2 then info
  else { info with closed := true }

/-! ## Message lifecycle handler (messageHandler.ts) -/

def nonText : List String := ["image", "voice_message"]

def textMessages : List String := ["user", "text"]

/-- `isTextMessage(type)`: membership in the text types and not in the
exempt (image / voice) types. -/
def isTextMessage (ty : String) : Bool :=
  textMessages.contains ty && !(nonText.contains ty)

/-- `handleSendMessage`: clamp the content to 700 characters when the type
(defaulted to `"text"`) is a text type, resolve the sender nickname, append
to the capped store, acknowledge the sender with the message id, then
broadcast the stored message to the rest of the room.  Returns the new
retained list, the stored message, and the outbound packets. -/
def handleSendMessage (userId : UserId) (storedNickname : Option String)
    (message : Message) (msgs : List Message) :
    List Message × Message × List Event :=
  let content :=
    if isTextMessage (message.type.getD "text") then sliceTo message.content 700
    else message.content
  let newMessage : Message :=
    { message with
      content := content
      senderNickname := some (message.senderNickname.getD (storedNickname.getD "Anonymous")) }
  (addMessage newMessage msgs, newMessage,
    [Event.messageAck newMessage.id, Event.messageBroadcast newMessage userId])

/-- `handleEditMessage`: apply the store's `editMessage` scan, then — with
the found / not-found result ignored — broadcast an `edit_message` packet to
the rest of the room unconditionally. -/
def handleEditMessage (userId : UserId) (message_id new_content : String)
    (msgs : List Message) : List Message × List Event :=
  ((editMessage message_id new_content msgs).1,
    [Event.editBroadcast message_id new_content userId])

/-! ## Music skip voting (musicHandler.ts `handleMusicSkipRequest`) -/

/-- `handleMusicSkipRequest`: ignore a duplicate vote; otherwise append the
vote and compare against `Math.ceil(onlineCount / 2)` (for naturals,
`(onlineCount + 1) / 2`).  At quorum, shift the queue head into
`currentSong` (state `"playing"`, `playTime = now`, votes cleared), or — on
an empty queue — clear the song and pause with votes cleared; below quorum,
persist the grown vote list unchanged otherwise.  Returns the stored
`MusicInfo`. -/
def handleMusicSkipRequest (onlineCount : Nat) (now : Nat) (userId : UserId)
    (current : MusicInfo) : MusicInfo :=
  if current.skipVotes.contains userId then current
  else
    let skipVotes := current.skipVotes ++ [userId]
    let requiredVotes := (onlineCount + 1) / 2
    if skipVotes.length ≥ requiredVotes then
      match current.queue with
      | nextSong :: rest =>
        { currentSong := some nextSong
          queue := rest
          progress := 0
          state := MusicState.playing
          playTime := some now
          skipVotes := []
          finishedUsers := [] }
      | [] =>
        { current with
          currentSong := none
          progress := 0
          state := MusicState.paused
          playTime := none
          skipVotes := [] }
    else
      { current with skipVotes := skipVotes }

/-! ## Registry operation sequences (for the presence invariant) -/

/-- One registry mutation: a connection attach or a detach. -/
inductive RegOp
  | add (c : ConnId) (userId : UserId) (roomId : RoomId)
  | remove (c : ConnId)
deriving DecidableEq, Repr

/-- Run a sequence of registry mutations. -/
def runOps : List RegOp → UserStore → UserStore
  | [], s => s
  | RegOp.add c u r :: rest, s => runOps rest (addUserToRoom c u r s)
  | RegOp.remove c :: rest, s => runOps rest (removeUser c s)

/-- Specification-side ledger: the registrations whose socket has not been
removed.  `add` appends a registration; `remove` deletes every registration
of that socket. -/
def liveRegs : List RegOp → List (ConnId × UserId × RoomId) →
    List (ConnId × UserId × RoomId)
  | [], regs => regs
  | RegOp.add c u r :: rest, regs => liveRegs rest (regs ++ [(c, u, r)])
  | RegOp.remove c :: rest, regs =>
    liveRegs rest (regs.filter (fun p => p.1 ≠ c))

/-- Well-formed usage: every `add` supplies a socket that is not currently
registered (each live websocket is attached exactly once).  This is how the
connection lifecycle drives the registry. -/
def freshAdds : List RegOp → List (ConnId × UserId × RoomId) → Bool
  | [], _ => true
  | RegOp.add c u r :: rest, regs =>
    !(regs.any (fun p => p.1 = c)) && freshAdds rest (regs ++ [(c, u, r)])
  | RegOp.remove c :: rest, regs =>
    freshAdds rest (regs.filter (fun p => p.1 ≠ c))

/-! ## The double-connection scenario (join / offline broadcast counting) -/

/-- A non-ghost user opens two connections to the same pair room starting
from an empty registry, then closes both.  The returned list is every
join / offline broadcast emitted by the four handler invocations, in
order. -/
def twoConnScenario (u : UserId) (r : RoomId) (c1 c2 : ConnId)
    (info : RoomRec) : List Event :=
  let o1 := handleUserConnected c1 u r true false info.max_participants false
    false none none 0 emptyStore
  let o2 := handleUserConnected c2 u r true false info.max_participants false
    true none none 0 o1.store
  let d1 := handleDisconnect c1 u r info o2.store
  let d2 := handleDisconnect c2 u r info d1.store
  o1.broadcasts ++ o2.broadcasts ++
    (if d1.offlineBroadcast then [Event.offline u] else []) ++
    (if d2.offlineBroadcast then [Event.offline u] else [])

/-! # Theorems -/

/-- C4: for every room and every sequence of sequential message sends, the
retained message list never holds more than 100 messages after any send,
below the cap an insert evicts nothing, and the message evicted on an
insert at the cap is exactly the oldest retained one (the tail of the list,
since the head is newest): strict FIFO eviction. -/
theorem retention_cap_and_fifo (sends start : List Message) (m : Message)
    (hstart : start.length ≤ 100) :
    (runSends sends start).length ≤ 100 ∧
    (start.length < 100 → addMessage m start = m :: start) ∧
    (start.length = 100 → addMessage m start = m :: start.dropLast) := by
  refine ⟨?_, ?_, ?_⟩
  · induction sends generalizing start with
    | nil => simpa [runSends] using hstart
    | cons a rest ih =>
      have h1 : (addMessage a start).length ≤ 100 := by
        simp [addMessage]
      simpa [runSends] using ih (addMessage a start) h1
  · intro h
    have : (m :: start).length ≤ 100 := by
      simp only [List.length_cons]
      omega
    simpa [addMessage] using List.take_of_length_le this
  · intro h
    have h99 : start.take 99 = start.dropLast := by
      rw [List.dropLast_eq_take, h]
    simp [addMessage, List.take_succ_cons, h99]

/-- Witness for `retention_cap_and_fifo` at a concrete send sequence. -/
theorem retention_cap_and_fifo_witness :
    ([] : List Message).length ≤ 100 ∧
    (runSends [{ id := "1", sender := "a", content := "x" }] []).length ≤ 100 := by
  refine ⟨by decide, ?_⟩
  exact (retention_cap_and_fifo [{ id := "1", sender := "a", content := "x" }] []
    { id := "1", sender := "a", content := "x" } (by decide)).1

/-- C8: `handleSendMessage` stores and broadcasts the first 700 characters
of the submitted content when the message type (defaulted to `"text"`) is a
normal text type, and stores the body unmodified for image and voice
types; the broadcast packet carries exactly the stored message. -/
theorem sendMessage_clamp (msgs : List Message) (userId : UserId)
    (nick : Option String) (m : Message) :
    ((m.type = none ∨ m.type = some "user" ∨ m.type = some "text" →
        (handleSendMessage userId nick m msgs).2.1.content = sliceTo m.content 700) ∧
      (m.type = some "image" ∨ m.type = some "voice_message" →
        (handleSendMessage userId nick m msgs).2.1.content = m.content)) ∧
    (handleSendMessage userId nick m msgs).2.2 =
      [Event.messageAck (handleSendMessage userId nick m msgs).2.1.id,
        Event.messageBroadcast (handleSendMessage userId nick m msgs).2.1 userId] ∧
    (handleSendMessage userId nick m msgs).1 =
      addMessage (handleSendMessage userId nick m msgs).2.1 msgs := by
  refine ⟨⟨?_, ?_⟩, rfl, rfl⟩
  · rintro (h | h | h) <;>
      simp [handleSendMessage, isTextMessage, textMessages, nonText, h]
  · rintro (h | h) <;>
      simp [handleSendMessage, isTextMessage, textMessages, nonText, h]

/-- Witness for `sendMessage_clamp` at a concrete text message. -/
theorem sendMessage_clamp_witness :
    (handleSendMessage "a" none
        { id := "1", sender := "a", content := "hi", type := some "user" } []).2.1.content =
      sliceTo "hi" 700 := by
  exact (sendMessage_clamp [] "a" none
    { id := "1", sender := "a", content := "hi", type := some "user" }).1.1
    (Or.inr (Or.inl rfl))

/-- C6 counterexample: editing a message id that is not in the retained
window leaves the store untouched but still emits an `edit_message`
broadcast, so the claimed "no broadcast is sent" is false on this input. -/
theorem editMessage_missing_id_counterexample :
    (∀ msg ∈ [({ id := "m1", sender := "a", content := "hello" } : Message)],
        msg.id ≠ "m2") ∧
    (handleEditMessage "a" "m2" "x"
        [{ id := "m1", sender := "a", content := "hello" }]).1 =
      [{ id := "m1", sender := "a", content := "hello" }] ∧
    (handleEditMessage "a" "m2" "x"
        [{ id := "m1", sender := "a", content := "hello" }]).2 =
      [Event.editBroadcast "m2" "x" "a"] := by
  decide

/-- C6 amended: an edit whose message id is not in the retained window
modifies no retained message (so no `edited` flag is set), but the
`edit_message` broadcast to the room is still emitted unconditionally. -/
theorem editMessage_missing_id_noop_but_broadcast (msgs : List Message)
    (uid mid newC : String) (h : ∀ msg ∈ msgs, msg.id ≠ mid) :
    (handleEditMessage uid mid newC msgs).1 = msgs ∧
    (handleEditMessage uid mid newC msgs).2 = [Event.editBroadcast mid newC uid] := by
  refine ⟨?_, rfl⟩
  show (editMessage mid newC msgs).1 = msgs
  induction msgs with
  | nil => rfl
  | cons msg rest ih =>
    have hm : (msg.id == mid) = false := by
      simpa using h msg (List.mem_cons_self _ _)
    have ht : (editMessage mid newC rest).1 = rest :=
      ih (fun msg hmem => h msg (List.mem_cons_of_mem _ hmem))
    simp [editMessage, hm, ht]

/-- Witness for `editMessage_missing_id_noop_but_broadcast` at a concrete
input. -/
theorem editMessage_missing_id_witness :
    (∀ msg ∈ ([] : List Message), msg.id ≠ "m2") ∧
    (handleEditMessage "a" "m2" "x" ([] : List Message)).1 = [] := by
  refine ⟨by decide, ?_⟩
  exact (editMessage_missing_id_noop_but_broadcast [] "a" "m2" "x" (by decide)).1

/-- C2 counterexample: a pair room that was never marked closed
(`closed = false`) is nevertheless deleted from the durable store when its
last live connection disconnects, so the claimed "deleted only if previously
marked closed" is false on this input. -/
theorem pairRoom_deleted_without_closed :
    ({ max_participants := some 2, closed := false } : RoomRec).closed = false ∧
    (handleDisconnect 0 "a" "r1" { max_participants := some 2, closed := false }
        (addUserToRoom 0 "a" "r1" emptyStore)).roomDeleted = true := by
  decide

/-- C2 amended: on a disconnect, the room is deleted from the durable store
exactly when the room is now empty and is a pair room
(`max_participants ?? 2 ≤ 2`) — the closed flag is not consulted, so group
rooms are never auto-deleted but an unclosed empty pair room is; the
disconnect-intent packet does mark a pair room closed. -/
theorem disconnect_deletes_iff_empty_pair (c : ConnId) (u : UserId)
    (r : RoomId) (info : RoomRec) (s : UserStore) :
    ((handleDisconnect c u r info s).roomDeleted = true ↔
      (getOnlineUsersInRoom r (removeUser c s) = [] ∧
        info.max_participants.getD 2 ≤ 2)) ∧
    (info.max_participants.getD 2 ≤ 2 →
      (handleDisconnectPacket info).closed = true) := by
  constructor
  · simp only [handleDisconnect, Bool.and_eq_true, Bool.not_eq_true',
      decide_eq_false_iff_not, List.isEmpty_iff, not_lt]
  · intro h
    simp [handleDisconnectPacket, Nat.not_lt.mpr h]

/-- Witness for `disconnect_deletes_iff_empty_pair` at a concrete group
room (never deleted) and pair room (intent marks it closed). -/
theorem disconnect_deletes_iff_empty_pair_witness :
    ((2 : Nat) ≤ 2) ∧
    (handleDisconnectPacket { max_participants := some 2, closed := false }).closed = true ∧
    (handleDisconnect 0 "a" "r1" { max_participants := some 10, closed := true }
        emptyStore).roomDeleted = false := by
  refine ⟨by decide, ?_, ?_⟩
  · exact (disconnect_deletes_iff_empty_pair 0 "a" "r1"
      { max_participants := some 2, closed := false } emptyStore).2 (by decide)
  · have h := (disconnect_deletes_iff_empty_pair 0 "a" "r1"
      { max_participants := some 10, closed := true } emptyStore).1
    by_contra hc
    simp only [Bool.not_eq_false] at hc
    have h2 := (h.mp hc).2
    simp only [Option.getD] at h2
    omega

/-- C7: skip votes are deduplicated per user; below the
`ceil(onlineCount / 2)` quorum (for naturals, `(onlineCount + 1) / 2`) the
current song, queue and state are unchanged and the grown vote list is
persisted; at quorum the queue head becomes the current song (or the
playback clears to paused-empty when the queue is empty) and the stored
vote list resets to empty. -/
theorem musicSkip_dedup_and_quorum (onlineCount now : Nat) (u : UserId)
    (current : MusicInfo) :
    (current.skipVotes.contains u = true →
      handleMusicSkipRequest onlineCount now u current = current) ∧
    (current.skipVotes.contains u = false →
      (current.skipVotes.length + 1 < (onlineCount + 1) / 2 →
        (handleMusicSkipRequest onlineCount now u current).currentSong =
            current.currentSong ∧
        (handleMusicSkipRequest onlineCount now u current).queue = current.queue ∧
        (handleMusicSkipRequest onlineCount now u current).state = current.state ∧
        (handleMusicSkipRequest onlineCount now u current).skipVotes =
            current.skipVotes ++ [u]) ∧
      ((onlineCount + 1) / 2 ≤ current.skipVotes.length + 1 →
        (handleMusicSkipRequest onlineCount now u current).skipVotes = [] ∧
        (∀ song rest, current.queue = song :: rest →
          (handleMusicSkipRequest onlineCount now u current).currentSong = some song ∧
          (handleMusicSkipRequest onlineCount now u current).queue = rest ∧
          (handleMusicSkipRequest onlineCount now u current).state =
            MusicState.playing) ∧
        (current.queue = [] →
          (handleMusicSkipRequest onlineCount now u current).currentSong = none ∧
          (handleMusicSkipRequest onlineCount now u current).state =
            MusicState.paused))) := by
  constructor
  · intro h
    have h1 : u ∈ current.skipVotes := by simpa using h
    simp [handleMusicSkipRequest, h1]
  · intro h
    have h1 : u ∉ current.skipVotes := by simpa using h
    constructor
    · intro hbelow
      have hc : ¬ ((onlineCount + 1) / 2 ≤ current.skipVotes.length + 1) := by omega
      simp [handleMusicSkipRequest, h1, hc]
    · intro hq
      refine ⟨?_, ?_, ?_⟩
      · cases hqueue : current.queue with
        | nil => simp [handleMusicSkipRequest, h1, hq, hqueue]
        | cons song rest => simp [handleMusicSkipRequest, h1, hq, hqueue]
      · intro song rest hqueue
        simp [handleMusicSkipRequest, h1, hq, hqueue]
      · intro hqueue
        simp [handleMusicSkipRequest, h1, hq, hqueue]

/-- C1: with the room at capacity (live deduplicated online count at least
`max_participants ?? 2`), an attaching connection with an ip and no ban is
rejected with the room-full close code exactly when its user id is not
already among the room's online users and ghost mode is off; otherwise it
is admitted. -/
theorem roomFull_admission (c : ConnId) (u : UserId) (r : RoomId) (mp : Option Nat)
    (isGhost isPart : Bool) (nick : Option String) (mi : Option MusicInfo)
    (now : Nat) (s : UserStore)
    (hcap : mp.getD 2 ≤ ((getOnlineUsersInRoom r s).dedup).length) :
    ((handleUserConnected c u r true false mp isGhost isPart nick mi now s).result =
        ConnectResult.rejectedRoomFull ↔
      ((getOnlineUsersInRoom r s).contains u = false ∧ isGhost = false)) ∧
    ((handleUserConnected c u r true false mp isGhost isPart nick mi now s).result =
        ConnectResult.admitted ↔
      ((getOnlineUsersInRoom r s).contains u = true ∨ isGhost = true)) := by
  have key : (handleUserConnected c u r true false mp isGhost isPart nick mi now s).result =
      (if (!((getOnlineUsersInRoom r s).dedup.contains u) &&
            decide ((getOnlineUsersInRoom r s).dedup.length ≥ mp.getD 2) && !isGhost) = true
        then ConnectResult.rejectedRoomFull else ConnectResult.admitted) := by
    simp only [handleUserConnected]
    rw [if_neg (by decide), if_neg (by decide)]
    by_cases hcond : (!((getOnlineUsersInRoom r s).dedup.contains u) &&
        decide ((getOnlineUsersInRoom r s).dedup.length ≥ mp.getD 2) && !isGhost) = true
    · rw [if_pos hcond, if_pos hcond]
    · rw [if_neg hcond, if_neg hcond]
      cases isGhost <;> rfl
  have hdec : decide ((getOnlineUsersInRoom r s).dedup.length ≥ mp.getD 2) = true :=
    decide_eq_true hcap
  have hcontains : (getOnlineUsersInRoom r s).dedup.contains u =
      (getOnlineUsersInRoom r s).contains u := by
    by_cases hu : u ∈ getOnlineUsersInRoom r s
    · have h1 : u ∈ (getOnlineUsersInRoom r s).dedup := List.mem_dedup.mpr hu
      simp [hu, h1]
    · have h1 : u ∉ (getOnlineUsersInRoom r s).dedup := fun hx => hu (List.mem_dedup.mp hx)
      simp [hu, h1]
  rw [key, hcontains] at *
  cases hcu : (getOnlineUsersInRoom r s).contains u <;> cases hg : isGhost <;>
    simp [hcu, hg, hdec, hcontains]

/-- Witness for `roomFull_admission`: a pair room holding online users
`"a"` and `"b"`; a third id `"c"` is rejected room-full while a second
simultaneous connection for the online `"a"` is admitted. -/
theorem roomFull_admission_witness :
    (handleUserConnected 2 "c" "r" true false (some 2) false false none none 0
        (addUserToRoom 1 "b" "r" (addUserToRoom 0 "a" "r" emptyStore))).result =
      ConnectResult.rejectedRoomFull ∧
    (handleUserConnected 2 "a" "r" true false (some 2) false true none none 0
        (addUserToRoom 1 "b" "r" (addUserToRoom 0 "a" "r" emptyStore))).result =
      ConnectResult.admitted := by
  constructor
  · exact (roomFull_admission 2 "c" "r" (some 2) false false none none 0
      (addUserToRoom 1 "b" "r" (addUserToRoom 0 "a" "r" emptyStore))
      (by decide)).1.mpr ⟨by decide, rfl⟩
  · exact (roomFull_admission 2 "a" "r" (some 2) false true none none 0
      (addUserToRoom 1 "b" "r" (addUserToRoom 0 "a" "r" emptyStore))
      (by decide)).2.mpr (Or.inl (by decide))

/-- C9: on every admission to a room whose stored `MusicInfo` is in the
`"playing"` state, the new connection receives a `music_sync` with the full
stored state followed by a `music_play` whose position is the stored
`progress` plus the elapsed wall-clock milliseconds since `playTime`
divided by 1000 — not the stored progress alone. -/
theorem musicSync_on_admission (c : ConnId) (u : UserId) (r : RoomId)
    (banned isGhost isPart : Bool) (mp : Option Nat) (nick : Option String)
    (info : MusicInfo) (t now : Nat) (s : UserStore)
    (hres : (handleUserConnected c u r true banned mp isGhost isPart nick
        (some info) now s).result = ConnectResult.admitted)
    (hstate : info.state = MusicState.playing) (hpt : info.playTime = some t) :
    (handleUserConnected c u r true banned mp isGhost isPart nick
        (some info) now s).directSends =
      [Event.musicSync info,
        Event.musicPlay (info.progress + (((now : ℚ) - (t : ℚ)) / 1000))] := by
  have hsends : musicSyncSends now (some info) =
      [Event.musicSync info,
        Event.musicPlay (info.progress + (((now : ℚ) - (t : ℚ)) / 1000))] := by
    simp [musicSyncSends, hstate, hpt]
  by_cases hb : banned = true
  · simp only [handleUserConnected] at hres
    rw [if_neg (by decide), if_pos hb] at hres
    exact absurd hres (by simp)
  · simp only [handleUserConnected] at hres ⊢
    rw [if_neg (by decide), if_neg hb] at hres ⊢
    by_cases hcond : (!((getOnlineUsersInRoom r s).dedup.contains u) &&
        decide ((getOnlineUsersInRoom r s).dedup.length ≥ mp.getD 2) && !isGhost) = true
    · rw [if_pos hcond] at hres
      exact absurd hres (by simp)
    · rw [if_neg hcond]
      cases isGhost <;> simp [hsends]

/-- Witness for `musicSync_on_admission`: joining while a song has been
playing for two seconds yields a sync then a play at `progress + 2`. -/
theorem musicSync_on_admission_witness :
    (handleUserConnected 0 "a" "r" true false (some 2) false false none
        (some
          { currentSong := some ⟨"s", "url"⟩
            progress := 5
            state := MusicState.playing
            playTime := some 1000 }) 3000
        emptyStore).directSends =
      [Event.musicSync
          { currentSong := some ⟨"s", "url"⟩
            progress := 5
            state := MusicState.playing
            playTime := some 1000 },
        Event.musicPlay (5 + (((3000 : ℚ) - (1000 : ℚ)) / 1000))] := by
  exact musicSync_on_admission 0 "a" "r" false false false (some 2) none
    { currentSong := some ⟨"s", "url"⟩
      progress := 5
      state := MusicState.playing
      playTime := some 1000 } 1000 3000 emptyStore
    (by decide) rfl rfl

/-- C3 counterexample: a non-ghost user opening two simultaneous
connections to the same pair room and closing both triggers TWO
`participant_joined` broadcasts (one per connection) — not the claimed
single one — while the `offline` broadcast is emitted exactly once. -/
theorem twoConn_join_counterexample :
    (twoConnScenario "a" "r" 0 1 { max_participants := some 2 }).countP
        isJoinEvent = 2 ∧
    (twoConnScenario "a" "r" 0 1 { max_participants := some 2 }).countP
        isJoinEvent ≠ 1 ∧
    (twoConnScenario "a" "r" 0 1 { max_participants := some 2 }).countP
        isOfflineEvent = 1 := by
  decide

/-- C3 amended: for every non-ghost user opening two simultaneous
connections (distinct sockets) to the same room of capacity at least one
and closing both, exactly one `offline` broadcast is emitted (on the
transition to zero connections), but a `participant_joined` broadcast is
emitted for every connection — two in total — because
`handleUserConnected` never checks whether the user is already online
before broadcasting the join. -/
theorem twoConn_joins_and_offline (u : UserId) (r : RoomId) (c1 c2 : ConnId)
    (info : RoomRec) (h : c1 ≠ c2) (hmp : 1 ≤ info.max_participants.getD 2) :
    (twoConnScenario u r c1 c2 info).countP isJoinEvent = 2 ∧
    (twoConnScenario u r c1 c2 info).countP isOfflineEvent = 1 := by
  have h2 : c2 ≠ c1 := Ne.symm h
  have e1 : handleUserConnected c1 u r true false info.max_participants false false
      none none 0 emptyStore =
      ⟨ConnectResult.admitted, ⟨[(r, [(u, [c1])])], [(c1, (u, r))]⟩, true, [],
        [Event.participantJoined u "Someone"]⟩ := by
    simp [handleUserConnected, getOnlineUsersInRoom, emptyStore, alGet, alSet,
      addUserToRoom, musicSyncSends, jsOr]
    omega
  have e2 : handleUserConnected c2 u r true false info.max_participants false true
      none none 0 ⟨[(r, [(u, [c1])])], [(c1, (u, r))]⟩ =
      ⟨ConnectResult.admitted, ⟨[(r, [(u, [c1, c2])])], [(c1, (u, r)), (c2, (u, r))]⟩,
        false, [], [Event.participantJoined u "Someone"]⟩ := by
    simp [handleUserConnected, getOnlineUsersInRoom, alGet, alSet,
      addUserToRoom, musicSyncSends, jsOr, h, h2]
  have e3 : handleDisconnect c1 u r info
      ⟨[(r, [(u, [c1, c2])])], [(c1, (u, r)), (c2, (u, r))]⟩ =
      ⟨⟨[(r, [(u, [c2])])], [(c2, (u, r))]⟩, false, false⟩ := by
    simp [handleDisconnect, removeUser, getOnlineUsersInRoom, alGet, alSet,
      alErase, List.filter, h2]
  have e4 : handleDisconnect c2 u r info ⟨[(r, [(u, [c2])])], [(c2, (u, r))]⟩ =
      ⟨⟨[], []⟩, true, !decide (info.max_participants.getD 2 > 2)⟩ := by
    simp [handleDisconnect, removeUser, getOnlineUsersInRoom, alGet, alSet,
      alErase, List.filter]
  simp [twoConnScenario, e1, e2, e3, e4, isJoinEvent, isOfflineEvent]

/-- Witness for `twoConn_joins_and_offline` at concrete sockets 0 and 1. -/
theorem twoConn_joins_and_offline_witness :
    ((0 : ConnId) ≠ 1) ∧
    1 ≤ ({ max_participants := some 2 } : RoomRec).max_participants.getD 2 ∧
    (twoConnScenario "b" "r2" 0 1 { max_participants := some 2 }).countP
      isJoinEvent = 2 := by
  refine ⟨by decide, by decide, ?_⟩
  exact (twoConn_joins_and_offline "b" "r2" 0 1 { max_participants := some 2 }
    (by decide) (by decide)).1

/-- Witness for `musicSkip_dedup_and_quorum`: four online users, one prior
vote; the second vote reaches the quorum of two, advances to the queue head
and resets the stored votes. -/
theorem musicSkip_dedup_and_quorum_witness :
    (({ skipVotes := ["u1"], queue := [⟨"next", "url"⟩] } : MusicInfo)).skipVotes.contains
        "u2" = false ∧
    (handleMusicSkipRequest 4 100 "u2"
        { skipVotes := ["u1"], queue := [⟨"next", "url"⟩] }).skipVotes = [] ∧
    (handleMusicSkipRequest 4 100 "u2"
        { skipVotes := ["u1"], queue := [⟨"next", "url"⟩] }).currentSong =
      some ⟨"next", "url"⟩ := by
  refine ⟨by decide, ?_, ?_⟩
  · exact (((musicSkip_dedup_and_quorum 4 100 "u2"
      { skipVotes := ["u1"], queue := [⟨"next", "url"⟩] }).2 (by decide)).2
      (by decide)).1
  · exact ((((musicSkip_dedup_and_quorum 4 100 "u2"
      { skipVotes := ["u1"], queue := [⟨"next", "url"⟩] }).2 (by decide)).2
      (by decide)).2.1 ⟨"next", "url"⟩ [] rfl).1


/-- The index-based reaction update (findIndex / set / filter-out-index of
the source) equals its structural replace-or-remove-first form. -/
lemma applyReactionIdx_eq_applyReaction (rc : Reaction) (reps : List Reaction) :
    applyReactionIdx rc reps = applyReaction rc reps := by
  induction reps with
  | nil =>
    cases he : emojiTruthy rc.emoji <;>
      simp [applyReactionIdx, findUserIdx, applyReaction, he]
  | cons r rest ih =>
    cases hu : (r.user_id == rc.user_id) with
    | true =>
      cases he : emojiTruthy rc.emoji <;>
        simp [applyReactionIdx, findUserIdx, applyReaction, hu, he]
    | false =>
      cases hf : findUserIdx rc.user_id rest with
      | none =>
        cases he : emojiTruthy rc.emoji <;>
          · simp only [applyReactionIdx, findUserIdx, applyReaction, hu, hf, he,
              Option.map_none, Bool.false_eq_true, if_false, if_true]
            rw [← ih]
            simp [applyReactionIdx, hf, he]
      | some i =>
        cases he : emojiTruthy rc.emoji <;>
          · simp only [applyReactionIdx, findUserIdx, applyReaction, hu, hf, he,
              Option.map_some, Bool.false_eq_true, if_false, if_true]
            rw [← ih]
            simp [applyReactionIdx, hf, he, List.set_cons_succ, List.eraseIdx_cons_succ]

lemma applyReaction_mem (rc : Reaction) (reps : List Reaction) :
    ∀ x ∈ applyReaction rc reps, x = rc ∨ x ∈ reps := by
  induction reps with
  | nil =>
    cases he : emojiTruthy rc.emoji <;> simp [applyReaction, he]
  | cons r rest ih =>
    intro x hx
    cases hu : (r.user_id == rc.user_id) with
    | true =>
      cases he : emojiTruthy rc.emoji
      · simp only [applyReaction, hu, he, Bool.false_eq_true, if_false, if_true] at hx
        exact Or.inr (List.mem_cons_of_mem _ hx)
      · simp only [applyReaction, hu, he, if_true] at hx
        rcases List.mem_cons.mp hx with h | h
        · exact Or.inl h
        · exact Or.inr (List.mem_cons_of_mem _ h)
    | false =>
      simp only [applyReaction, hu, Bool.false_eq_true, if_false] at hx
      rcases List.mem_cons.mp hx with h | h
      · exact Or.inr (h ▸ List.mem_cons_self r rest)
      · rcases ih x h with h2 | h2
        · exact Or.inl h2
        · exact Or.inr (List.mem_cons_of_mem _ h2)

lemma applyReaction_nodup (rc : Reaction) (reps : List Reaction)
    (h : (reps.map Reaction.user_id).Nodup) :
    ((applyReaction rc reps).map Reaction.user_id).Nodup := by
  induction reps with
  | nil =>
    cases he : emojiTruthy rc.emoji <;> simp [applyReaction, he]
  | cons r rest ih =>
    simp only [List.map_cons, List.nodup_cons] at h
    obtain ⟨hr, hrest⟩ := h
    cases hu : (r.user_id == rc.user_id) with
    | true =>
      have hid : r.user_id = rc.user_id := by simpa using hu
      cases he : emojiTruthy rc.emoji
      · simp only [applyReaction, hu, he, Bool.false_eq_true, if_false, if_true]
        exact hrest
      · simp only [applyReaction, hu, he, if_true, List.map_cons, List.nodup_cons]
        exact ⟨by rw [← hid]; exact hr, hrest⟩
    | false =>
      have hid : r.user_id ≠ rc.user_id := by simpa using hu
      simp only [applyReaction, hu, Bool.false_eq_true, if_false, List.map_cons,
        List.nodup_cons]
      refine ⟨?_, ih hrest⟩
      intro hmem
      rcases List.mem_map.mp hmem with ⟨x, hx, hxe⟩
      rcases applyReaction_mem rc rest x hx with h2 | h2
      · exact hid (by rw [← hxe, h2])
      · exact hr (by rw [← hxe]; exact List.mem_map_of_mem Reaction.user_id h2)

lemma applyReaction_remove_filter (rc : Reaction) (reps : List Reaction)
    (he : emojiTruthy rc.emoji = false)
    (h : (reps.map Reaction.user_id).Nodup) :
    (applyReaction rc reps).filter (fun x => x.user_id == rc.user_id) = [] := by
  induction reps with
  | nil => simp [applyReaction, he]
  | cons r rest ih =>
    simp only [List.map_cons, List.nodup_cons] at h
    obtain ⟨hr, hrest⟩ := h
    cases hu : (r.user_id == rc.user_id) with
    | true =>
      have hid : r.user_id = rc.user_id := by simpa using hu
      simp only [applyReaction, hu, he, Bool.false_eq_true, if_false, if_true]
      rw [List.filter_eq_nil_iff]
      intro x hx
      simp only [beq_iff_eq]
      intro hxe
      apply hr
      rw [← hid] at hxe
      rw [← hxe]
      exact List.mem_map_of_mem Reaction.user_id hx
    | false =>
      simp only [applyReaction, hu, Bool.false_eq_true, if_false]
      rw [List.filter_cons_of_neg (by simpa using hu)]
      exact ih hrest


lemma updateReaction_mem (rc : Reaction) (msgs : List Message) :
    ∀ m ∈ (updateReaction rc msgs).1, m ∈ msgs ∨
      ∃ m0 ∈ msgs, m = { m0 with reactions := applyReactionIdx rc m0.reactions } := by
  induction msgs with
  | nil => simp [updateReaction]
  | cons msg rest ih =>
    intro m hm
    cases hid : (msg.id == rc.message_id) with
    | true =>
      simp only [updateReaction, hid, if_true] at hm
      rcases List.mem_cons.mp hm with h | h
      · exact Or.inr ⟨msg, List.mem_cons_self _ _, h⟩
      · exact Or.inl (List.mem_cons_of_mem _ h)
    | false =>
      simp only [updateReaction, hid, Bool.false_eq_true, if_false] at hm
      rcases List.mem_cons.mp hm with h | h
      · exact Or.inl (h ▸ List.mem_cons_self _ _)
      · rcases ih m h with h2 | ⟨m0, hm0, heq⟩
        · exact Or.inl (List.mem_cons_of_mem _ h2)
        · exact Or.inr ⟨m0, List.mem_cons_of_mem _ hm0, heq⟩

lemma firstMsgWithId_updateReaction (rc : Reaction) (msgs : List Message) :
    firstMsgWithId rc.message_id ((updateReaction rc msgs).1) =
      (firstMsgWithId rc.message_id msgs).map
        (fun m => { m with reactions := applyReactionIdx rc m.reactions }) := by
  induction msgs with
  | nil => simp [updateReaction, firstMsgWithId]
  | cons msg rest ih =>
    cases hid : (msg.id == rc.message_id) with
    | true => simp [updateReaction, hid, firstMsgWithId]
    | false => simp [updateReaction, hid, firstMsgWithId, ih]

lemma firstMsgWithId_mem (mid : String) (msgs : List Message) (m : Message)
    (h : firstMsgWithId mid msgs = some m) : m ∈ msgs := by
  induction msgs with
  | nil => simp [firstMsgWithId] at h
  | cons msg rest ih =>
    cases hid : (msg.id == mid) with
    | true =>
      simp only [firstMsgWithId, hid, if_true, Option.some_inj] at h
      exact h ▸ List.mem_cons_self _ _
    | false =>
      simp only [firstMsgWithId, hid, Bool.false_eq_true, if_false] at h
      exact List.mem_cons_of_mem _ (ih h)

/-- C5: reactions obey upsert-or-remove semantics keyed by
(messageId, userId).  Starting from a retained window in which every
message holds at most one reaction per user, any `updateReaction` preserves
that invariant, and applying `react(emoji=A)`, then `react(emoji=B)`, then
`react(emoji=null)` by one user against one message id leaves that user
with zero reactions on the located message. -/
theorem reaction_upsert_remove (msgs : List Message) (rc : Reaction)
    (mid u : String) (eA eB : Option String)
    (hA : emojiTruthy eA = true) (hB : emojiTruthy eB = true)
    (hinv : ∀ m ∈ msgs, (m.reactions.map Reaction.user_id).Nodup) :
    (∀ m ∈ (updateReaction rc msgs).1, (m.reactions.map Reaction.user_id).Nodup) ∧
    (∀ m, firstMsgWithId mid
        ((updateReaction ⟨mid, u, none⟩
          ((updateReaction ⟨mid, u, eB⟩
            ((updateReaction ⟨mid, u, eA⟩ msgs).1)).1)).1) = some m →
      m.reactions.filter (fun x => x.user_id == u) = []) := by
  have hpres : ∀ (rc2 : Reaction) (ms : List Message),
      (∀ m ∈ ms, (m.reactions.map Reaction.user_id).Nodup) →
      ∀ m ∈ (updateReaction rc2 ms).1, (m.reactions.map Reaction.user_id).Nodup := by
    intro rc2 ms hms m hm
    rcases updateReaction_mem rc2 ms m hm with h | ⟨m0, hm0, heq⟩
    · exact hms m h
    · rw [heq]
      show ((applyReactionIdx rc2 m0.reactions).map Reaction.user_id).Nodup
      rw [applyReactionIdx_eq_applyReaction]
      exact applyReaction_nodup rc2 m0.reactions (hms m0 hm0)
  refine ⟨hpres rc msgs hinv, ?_⟩
  intro m hm
  have h1 := firstMsgWithId_updateReaction ⟨mid, u, eA⟩ msgs
  have h2 := firstMsgWithId_updateReaction ⟨mid, u, eB⟩
    ((updateReaction ⟨mid, u, eA⟩ msgs).1)
  have h3 := firstMsgWithId_updateReaction ⟨mid, u, none⟩
    ((updateReaction ⟨mid, u, eB⟩ ((updateReaction ⟨mid, u, eA⟩ msgs).1)).1)
  rw [h3, h2, h1] at hm
  cases hfirst : firstMsgWithId mid msgs with
  | none => rw [hfirst] at hm; simp at hm
  | some m0 =>
    rw [hfirst] at hm
    simp only [Option.map_some', Option.some_inj] at hm
    have hmem0 := firstMsgWithId_mem mid msgs m0 hfirst
    have hn0 := hinv m0 hmem0
    rw [← hm]
    show (applyReactionIdx ⟨mid, u, none⟩
        (applyReactionIdx ⟨mid, u, eB⟩
          (applyReactionIdx ⟨mid, u, eA⟩ m0.reactions))).filter
      (fun x => x.user_id == u) = []
    rw [applyReactionIdx_eq_applyReaction, applyReactionIdx_eq_applyReaction,
      applyReactionIdx_eq_applyReaction]
    have hn1 := applyReaction_nodup ⟨mid, u, eA⟩ m0.reactions hn0
    have hn2 := applyReaction_nodup ⟨mid, u, eB⟩ _ hn1
    exact applyReaction_remove_filter ⟨mid, u, none⟩ _ rfl hn2


/-- Witness for `reaction_upsert_remove` at a concrete one-message window. -/
theorem reaction_upsert_remove_witness :
    (∀ m ∈ [({ id := "m1", sender := "a", content := "hello" } : Message)],
        (m.reactions.map Reaction.user_id).Nodup) ∧
    ({ id := "m1", sender := "a", content := "hello" } : Message).reactions.filter
        (fun x => x.user_id == "u1") = [] := by
  refine ⟨by decide, ?_⟩
  exact (reaction_upsert_remove [{ id := "m1", sender := "a", content := "hello" }]
    ⟨"m1", "u1", some "A"⟩ "m1" "u1" (some "A") (some "B") rfl rfl (by decide)).2
    { id := "m1", sender := "a", content := "hello" } (by decide)

section AssocLemmas

variable {κ : Type} {β : Type} [DecidableEq κ]

lemma alGet_alSet_self (k : κ) (v : β) (l : List (κ × β)) :
    alGet k (alSet k v l) = some v := by
  induction l with
  | nil => simp [alGet, alSet]
  | cons p rest ih =>
    by_cases h : p.1 = k
    · simp [alGet, alSet, h]
    · simp [alGet, alSet, h, ih]

lemma alGet_alSet_ne {k k' : κ} (h : k' ≠ k) (v : β) (l : List (κ × β)) :
    alGet k' (alSet k v l) = alGet k' l := by
  induction l with
  | nil => simp [alGet, alSet, Ne.symm h]
  | cons p rest ih =>
    rcases p with ⟨a, b⟩
    by_cases hp : a = k
    · subst hp
      have h2 : ¬ (a = k') := fun he => h he.symm
      simp [alGet, alSet, h2]
    · by_cases ha : a = k'
      · simp [alGet, alSet, hp, ha, h]
      · simp [alGet, alSet, hp, ha, ih]

lemma alSet_ne_nil (k : κ) (v : β) (l : List (κ × β)) : alSet k v l ≠ [] := by
  cases l with
  | nil => simp [alSet]
  | cons p rest =>
    by_cases h : p.1 = k <;> simp [alSet, h]

lemma keys_alSet_sub (k : κ) (v : β) (l : List (κ × β)) :
    ∀ a ∈ (alSet k v l).map (fun p => p.1), a = k ∨ a ∈ l.map (fun p => p.1) := by
  induction l with
  | nil => simp [alSet]
  | cons p rest ih =>
    by_cases h : p.1 = k
    · intro a ha
      simp only [alSet, h, if_true, List.map_cons, List.mem_cons] at ha
      rcases ha with h2 | h2
      · exact Or.inl h2
      · exact Or.inr (List.mem_cons_of_mem _ h2)
    · intro a ha
      simp only [alSet, h, if_false, List.map_cons, List.mem_cons] at ha
      rcases ha with h2 | h2
      · exact Or.inr (h2 ▸ List.mem_cons_self _ _)
      · rcases ih a h2 with h3 | h3
        · exact Or.inl h3
        · exact Or.inr (List.mem_cons_of_mem _ h3)

lemma nodup_keys_alSet (k : κ) (v : β) (l : List (κ × β))
    (h : (l.map (fun p => p.1)).Nodup) :
    ((alSet k v l).map (fun p => p.1)).Nodup := by
  induction l with
  | nil => simp [alSet]
  | cons p rest ih =>
    simp only [List.map_cons, List.nodup_cons] at h
    obtain ⟨hp, hrest⟩ := h
    by_cases hk : p.1 = k
    · simp only [alSet, hk, if_true, List.map_cons, List.nodup_cons]
      exact ⟨hk ▸ hp, hrest⟩
    · simp only [alSet, hk, if_false, List.map_cons, List.nodup_cons]
      refine ⟨?_, ih hrest⟩
      intro hmem
      rcases keys_alSet_sub k v rest p.1 hmem with h2 | h2
      · exact hk h2
      · exact hp h2

lemma alErase_sublist (k : κ) (l : List (κ × β)) : (alErase k l).Sublist l := by
  induction l with
  | nil => simp [alErase]
  | cons p rest ih =>
    by_cases h : p.1 = k
    · simp only [alErase, h, if_true]
      exact List.sublist_cons_self p rest
    · simp only [alErase, h, if_false]
      exact List.Sublist.cons₂ p ih

lemma nodup_keys_alErase (k : κ) (l : List (κ × β))
    (h : (l.map (fun p => p.1)).Nodup) :
    ((alErase k l).map (fun p => p.1)).Nodup :=
  ((alErase_sublist k l).map (fun p => p.1)).nodup h

lemma alGet_alErase_ne {k k' : κ} (h : k' ≠ k) (l : List (κ × β)) :
    alGet k' (alErase k l) = alGet k' l := by
  induction l with
  | nil => simp [alErase]
  | cons p rest ih =>
    rcases p with ⟨a, b⟩
    by_cases hp : a = k
    · subst hp
      have h2 : ¬ (a = k') := fun he => h he.symm
      simp [alErase, alGet, h2]
    · by_cases ha : a = k'
      · simp [alErase, alGet, hp, ha, h]
      · simp [alErase, alGet, hp, ha, ih]

lemma alGet_alErase_self (k : κ) (l : List (κ × β))
    (h : (l.map (fun p => p.1)).Nodup) :
    alGet k (alErase k l) = none := by
  induction l with
  | nil => simp [alErase, alGet]
  | cons p rest ih =>
    simp only [List.map_cons, List.nodup_cons] at h
    obtain ⟨hp, hrest⟩ := h
    by_cases hk : p.1 = k
    · cases hget : alGet k rest with
      | none => simp [alErase, hk, hget]
      | some v =>
        exfalso
        apply hp
        rw [hk]
        clear ih hp
        induction rest with
        | nil => simp [alGet] at hget
        | cons q qrest ihq =>
          by_cases hq : q.1 = k
          · simp [hq]
          · simp only [alGet, hq, if_false] at hget
            simp only [List.map_cons, List.nodup_cons] at hrest
            exact List.mem_cons_of_mem _ (ihq hrest.2 hget)
    · simp [alErase, alGet, hk, ih hrest]

lemma alErase_eq_nil_iff (k : κ) (l : List (κ × β)) :
    alErase k l = [] ↔ l = [] ∨ ∃ v, l = [(k, v)] := by
  cases l with
  | nil => simp [alErase]
  | cons p rest =>
    by_cases h : p.1 = k
    · simp only [alErase, h, if_true]
      constructor
      · intro he
        right
        exact ⟨p.2, by rw [he, ← h]⟩
      · rintro (he | ⟨v, he⟩)
        · exact absurd he (by simp)
        · simpa using congrArg List.tail he
    · simp only [alErase, h, if_false]
      constructor
      · intro he
        exact absurd he (by simp)
      · rintro (he | ⟨v, he⟩)
        · exact absurd he (by simp)
        · have : p = (k, v) := by simpa using congrArg List.head? he
          exact absurd (congrArg Prod.fst this) h

lemma alGet_isSome_iff (k : κ) (l : List (κ × β)) :
    (alGet k l).isSome ↔ k ∈ l.map (fun p => p.1) := by
  induction l with
  | nil => simp [alGet]
  | cons p rest ih =>
    by_cases h : p.1 = k
    · simp [alGet, h]
    · simp [alGet, h, ih, Ne.symm h]

lemma alGet_mem {k : κ} {v : β} {l : List (κ × β)}
    (h : alGet k l = some v) : (k, v) ∈ l := by
  induction l with
  | nil => simp [alGet] at h
  | cons p rest ih =>
    rcases p with ⟨a, b⟩
    by_cases hp : a = k
    · simp only [alGet, hp, if_true, Option.some_inj] at h
      subst hp
      subst h
      exact List.mem_cons_self _ _
    · simp only [alGet, hp, if_false] at h
      exact List.mem_cons_of_mem _ (ih h)

end AssocLemmas



abbrev Regs := List (ConnId × UserId × RoomId)

/-- The abstraction invariant tying a `UserStore` to the ledger of live
registrations: `socketToInfo` is exactly the ledger viewed as a map, every
room and user entry is nonempty with duplicate-free keys, and a socket list
holds exactly the live sockets of its (user, room). -/
structure StoreInv (regs : Regs) (s : UserStore) : Prop where
  regsNodup : (regs.map (fun p => p.1)).Nodup
  stiNodup : (s.socketToInfo.map (fun p => p.1)).Nodup
  stiSound : ∀ c u r, alGet c s.socketToInfo = some (u, r) ↔ (c, u, r) ∈ regs
  roomsNodup : (s.rooms.map (fun p => p.1)).Nodup
  roomNone : ∀ r, alGet r s.rooms = none → ∀ c u, (c, u, r) ∉ regs
  roomSome : ∀ r roomUsers, alGet r s.rooms = some roomUsers →
    roomUsers ≠ [] ∧ (roomUsers.map (fun p => p.1)).Nodup
  userNone : ∀ r roomUsers u, alGet r s.rooms = some roomUsers →
    alGet u roomUsers = none → ∀ c, (c, u, r) ∉ regs
  userSome : ∀ r roomUsers u conns, alGet r s.rooms = some roomUsers →
    alGet u roomUsers = some conns →
    conns ≠ [] ∧ conns.Nodup ∧ (∀ c, c ∈ conns ↔ (c, u, r) ∈ regs)

/-- The empty registry satisfies the invariant with an empty ledger. -/
lemma StoreInv.empty : StoreInv [] emptyStore := by
  constructor <;> simp [emptyStore, alGet]



/-- Unpacking membership in a one-registration ledger. -/
lemma mem_singleton_reg {c c' : ConnId} {u u' : UserId} {r r' : RoomId}
    (h : (c', u', r') ∈ ([(c, u, r)] : Regs)) : c' = c ∧ u' = u ∧ r' = r := by
  simpa using h

/-- `addUserToRoom` with a not-currently-registered socket extends the
ledger by one registration and preserves the invariant. -/
lemma inv_add (regs : Regs) (s : UserStore) (c : ConnId) (u : UserId) (r : RoomId)
    (hInv : StoreInv regs s) (hfresh : ∀ p ∈ regs, p.1 ≠ c) :
    StoreInv (regs ++ [(c, u, r)]) (addUserToRoom c u r s) := by
  obtain ⟨hrn, hsn, hss, hkn, hr0, hr1, hu0, hu1⟩ := hInv
  have hcfresh : c ∉ regs.map (fun p => p.1) := by
    intro hmem
    rcases List.mem_map.mp hmem with ⟨p, hp, he⟩
    exact hfresh p hp he
  have hcnotin : ∀ u' r', (c, u', r') ∉ regs := by
    intro u' r' hmem
    exact hfresh _ hmem rfl
  have hgetRU : alGet r (addUserToRoom c u r s).rooms =
      some (alSet u ((alGet u ((alGet r s.rooms).getD [])).getD [] ++ [c])
        ((alGet r s.rooms).getD [])) := by
    simp only [addUserToRoom]
    exact alGet_alSet_self _ _ _
  constructor
  case regsNodup =>
    simp only [List.map_append, List.map_cons, List.map_nil]
    rw [List.nodup_append]
    exact ⟨hrn, List.nodup_singleton c, by simpa using fun hx => hcfresh hx⟩
  case stiNodup =>
    simp only [addUserToRoom]
    exact nodup_keys_alSet c (u, r) s.socketToInfo hsn
  case stiSound =>
    simp only [addUserToRoom]
    intro c' u' r'
    by_cases hc : c' = c
    · subst c'
      rw [alGet_alSet_self]
      constructor
      · intro h
        have h2 : (u', r') = (u, r) := by simpa using h.symm
        rw [List.mem_append]
        right
        simp [Prod.ext_iff] at h2
        simp [h2.1, h2.2]
      · intro h
        rcases List.mem_append.mp h with h2 | h2
        · exact absurd rfl (hfresh _ h2)
        · obtain ⟨_, h3, h4⟩ := mem_singleton_reg h2
          rw [h3, h4]
    · rw [alGet_alSet_ne hc, hss c' u' r']
      constructor
      · intro h
        exact List.mem_append_left _ h
      · intro h
        rcases List.mem_append.mp h with h2 | h2
        · exact h2
        · exact absurd (mem_singleton_reg h2).1 hc
  case roomsNodup =>
    simp only [addUserToRoom]
    exact nodup_keys_alSet r _ s.rooms hkn
  case roomNone =>
    intro r' hget c' u' hmem
    by_cases hr : r' = r
    · subst r'
      rw [hgetRU] at hget
      exact absurd hget (by simp)
    · simp only [addUserToRoom] at hget
      rw [alGet_alSet_ne hr] at hget
      rcases List.mem_append.mp hmem with h2 | h2
      · exact hr0 r' hget c' u' h2
      · exact hr ((mem_singleton_reg h2).2.2)
  case roomSome =>
    intro r' roomUsers' hget
    by_cases hr : r' = r
    · subst r'
      rw [hgetRU, Option.some_inj] at hget
      subst hget
      refine ⟨alSet_ne_nil _ _ _, ?_⟩
      apply nodup_keys_alSet
      cases hg : alGet r s.rooms with
      | none => simp
      | some ru => simpa using (hr1 r ru hg).2
    · simp only [addUserToRoom] at hget
      rw [alGet_alSet_ne hr] at hget
      exact hr1 r' roomUsers' hget
  case userNone =>
    intro r' roomUsers' u' hget hgetu c' hmem
    by_cases hr : r' = r
    · subst r'
      rw [hgetRU, Option.some_inj] at hget
      subst hget
      by_cases hu : u' = u
      · subst u'
        rw [alGet_alSet_self] at hgetu
        exact absurd hgetu (by simp)
      · rw [alGet_alSet_ne hu] at hgetu
        rcases List.mem_append.mp hmem with h2 | h2
        · cases hg : alGet r s.rooms with
          | none => exact hr0 r hg c' u' h2
          | some ru =>
            rw [hg] at hgetu
            exact hu0 r ru u' hg (by simpa using hgetu) c' h2
        · exact hu ((mem_singleton_reg h2).2.1)
    · simp only [addUserToRoom] at hget
      rw [alGet_alSet_ne hr] at hget
      rcases List.mem_append.mp hmem with h2 | h2
      · exact hu0 r' roomUsers' u' hget hgetu c' h2
      · exact hr ((mem_singleton_reg h2).2.2)
  case userSome =>
    intro r' roomUsers' u' conns' hget hgetu
    by_cases hr : r' = r
    · subst r'
      rw [hgetRU, Option.some_inj] at hget
      subst hget
      by_cases hu : u' = u
      · subst u'
        rw [alGet_alSet_self, Option.some_inj] at hgetu
        subst hgetu
        have hconns : ∀ c'', c'' ∈ (alGet u ((alGet r s.rooms).getD [])).getD [] ↔
            (c'', u, r) ∈ regs := by
          cases hg : alGet r s.rooms with
          | none =>
            intro c''
            simp only [hg, Option.getD_none, alGet]
            simp only [List.not_mem_nil, false_iff]
            intro hmem
            exact hr0 r hg c'' u hmem
          | some ru =>
            cases hgu : alGet u ru with
            | none =>
              intro c''
              simp only [hg, Option.getD_some, hgu, Option.getD_none]
              simp only [List.not_mem_nil, false_iff]
              intro hmem
              exact hu0 r ru u hg hgu c'' hmem
            | some conns0 =>
              intro c''
              simp only [hg, Option.getD_some, hgu]
              exact (hu1 r ru u conns0 hg hgu).2.2 c''
        have hnd0 : ((alGet u ((alGet r s.rooms).getD [])).getD []).Nodup := by
          cases hg : alGet r s.rooms with
          | none => simp [hg, alGet]
          | some ru =>
            cases hgu : alGet u ru with
            | none => simp [hg, hgu]
            | some conns0 =>
              simp only [hg, Option.getD_some, hgu]
              exact (hu1 r ru u conns0 hg hgu).2.1
        refine ⟨by simp, ?_, ?_⟩
        · rw [List.nodup_append]
          refine ⟨hnd0, List.nodup_singleton c, ?_⟩
          rw [List.disjoint_singleton]
          intro hx
          exact hcnotin u r ((hconns c).mp hx)
        · intro c''
          rw [List.mem_append, List.mem_append]
          refine or_congr (hconns c'') ?_
          simp [Prod.ext_iff]
      · rw [alGet_alSet_ne hu] at hgetu
        cases hg : alGet r s.rooms with
        | none =>
          rw [hg] at hgetu
          simp [alGet] at hgetu
        | some ru =>
          rw [hg] at hgetu
          simp only [Option.getD_some] at hgetu
          obtain ⟨hne, hnd, hiff⟩ := hu1 r ru u' conns' hg hgetu
          refine ⟨hne, hnd, ?_⟩
          intro c''
          rw [hiff c'']
          constructor
          · intro h2
            exact List.mem_append_left _ h2
          · intro h2
            rcases List.mem_append.mp h2 with h3 | h3
            · exact h3
            · exact absurd ((mem_singleton_reg h3).2.1) hu
    · simp only [addUserToRoom] at hget
      rw [alGet_alSet_ne hr] at hget
      obtain ⟨hne, hnd, hiff⟩ := hu1 r' roomUsers' u' conns' hget hgetu
      refine ⟨hne, hnd, ?_⟩
      intro c''
      rw [hiff c'']
      constructor
      · intro h2
        exact List.mem_append_left _ h2
      · intro h2
        rcases List.mem_append.mp h2 with h3 | h3
        · exact h3
        · exact absurd ((mem_singleton_reg h3).2.2) hr



/-- A duplicate-free list whose members all equal `c` and which contains
`c` is exactly `[c]`. -/
lemma nodup_all_eq_singleton {conns : List ConnId} {c : ConnId}
    (hnd : conns.Nodup) (hmem : c ∈ conns)
    (hall : ∀ x ∈ conns, x = c) : conns = [c] := by
  cases conns with
  | nil => simp at hmem
  | cons a rest =>
    have ha : a = c := hall a (List.mem_cons_self _ _)
    subst ha
    cases rest with
    | nil => rfl
    | cons b brest =>
      have hb : b = a := hall b (List.mem_cons_of_mem _ (List.mem_cons_self _ _))
      subst hb
      simp [List.nodup_cons] at hnd

/-- `removeUser` deletes exactly the socket's registration from the ledger
and preserves the invariant, including the delete-on-empty behaviour for
user and room entries. -/
lemma inv_remove (regs : Regs) (s : UserStore) (c : ConnId)
    (hInv : StoreInv regs s) :
    StoreInv (regs.filter (fun p => p.1 ≠ c)) (removeUser c s) := by
  obtain ⟨hrn, hsn, hss, hkn, hr0, hr1, hu0, hu1⟩ := hInv
  have hmemf : ∀ c' u' r', (c', u', r') ∈ regs.filter (fun p => p.1 ≠ c) ↔
      ((c', u', r') ∈ regs ∧ c' ≠ c) := by
    intro c' u' r'
    rw [List.mem_filter]
    simp
  have hrn1 : ((regs.filter (fun p => p.1 ≠ c)).map (fun p => p.1)).Nodup :=
    ((List.filter_sublist regs).map (fun p => p.1)).nodup hrn
  have huniq : ∀ c' u1 r1 u2 r2, (c', u1, r1) ∈ regs → (c', u2, r2) ∈ regs →
      u1 = u2 ∧ r1 = r2 := by
    intro c' u1 r1 u2 r2 h1 h2
    have h3 := List.inj_on_of_nodup_map hrn h1 h2 rfl
    simpa [Prod.ext_iff] using h3
  cases hsti : alGet c s.socketToInfo with
  | none =>
    have hnone : ∀ u' r', (c, u', r') ∉ regs := by
      intro u' r' hmem
      have h2 := (hss c u' r').mpr hmem
      rw [hsti] at h2
      exact absurd h2 (by simp)
    have hfilter : regs.filter (fun p => p.1 ≠ c) = regs := by
      rw [List.filter_eq_self]
      rintro ⟨c', u', r'⟩ hp
      simp only [decide_eq_true_eq]
      intro he
      subst he
      exact hnone u' r' hp
    have hstore : removeUser c s = s := by
      simp [removeUser, hsti]
    rw [hfilter, hstore]
    exact ⟨hrn, hsn, hss, hkn, hr0, hr1, hu0, hu1⟩
  | some info =>
    obtain ⟨u, r⟩ := info
    have hcreg : (c, u, r) ∈ regs := (hss c u r).mp hsti
    have hregs1 : ∀ c' u' r', (c', u', r') ∈ regs.filter (fun p => p.1 ≠ c) ↔
        ((c', u', r') ∈ regs ∧ ¬(c' = c ∧ u' = u ∧ r' = r)) := by
      intro c' u' r'
      rw [hmemf]
      constructor
      · rintro ⟨h1, h2⟩
        exact ⟨h1, fun he => h2 he.1⟩
      · rintro ⟨h1, h2⟩
        refine ⟨h1, ?_⟩
        intro he
        subst c'
        obtain ⟨e1, e2⟩ := huniq c u' r' u r h1 hcreg
        exact h2 ⟨rfl, e1, e2⟩
    have hsub : ∀ c' u' r', (c', u', r') ∈ regs.filter (fun p => p.1 ≠ c) →
        (c', u', r') ∈ regs := fun c' u' r' h => ((hmemf c' u' r').mp h).1
    cases hgr : alGet r s.rooms with
    | none => exact absurd hcreg (hr0 r hgr c u)
    | some roomUsers =>
      cases hgu : alGet u roomUsers with
      | none => exact absurd hcreg (hu0 r roomUsers u hgr hgu c)
      | some conns =>
        obtain ⟨hcne, hcnd, hciff⟩ := hu1 r roomUsers u conns hgr hgu
        have hcmem : c ∈ conns := (hciff c).mpr hcreg
        obtain ⟨hrune, hrund⟩ := hr1 r roomUsers hgr
        have hsti2 : (removeUser c s).socketToInfo = alErase c s.socketToInfo := by
          simp only [removeUser, hsti, hgr, hgu]
        have hstiNodup1 : ((alErase c s.socketToInfo).map (fun p => p.1)).Nodup :=
          nodup_keys_alErase c s.socketToInfo hsn
        have hstiSound1 : ∀ c' u' r',
            alGet c' (alErase c s.socketToInfo) = some (u', r') ↔
            (c', u', r') ∈ regs.filter (fun p => p.1 ≠ c) := by
          intro c' u' r'
          by_cases hc : c' = c
          · subst c'
            rw [alGet_alErase_self c s.socketToInfo hsn]
            rw [hregs1]
            constructor
            · intro h
              exact absurd h (by simp)
            · rintro ⟨h1, h2⟩
              obtain ⟨e1, e2⟩ := huniq c u' r' u r h1 hcreg
              exact absurd ⟨rfl, e1, e2⟩ h2
          · rw [alGet_alErase_ne hc, hss c' u' r', hmemf]
            exact ⟨fun h => ⟨h, hc⟩, fun h => h.1⟩
        have hfiltermem : ∀ x, x ∈ conns.filter (fun sock => sock ≠ c) ↔
            (x ∈ conns ∧ x ≠ c) := by
          intro x
          rw [List.mem_filter]
          simp
        have hgone : ∀ c', (c', u, r) ∈ regs → c' ∈ conns :=
          fun c' h => (hciff c').mpr h
        by_cases hfe : (conns.filter (fun sock => sock ≠ c)).isEmpty = true
        · -- the user's socket list empties: the user entry is erased
          have hfnil : conns.filter (fun sock => sock ≠ c) = [] :=
            List.isEmpty_iff.mp hfe
          have hconnseq : conns = [c] := by
            apply nodup_all_eq_singleton hcnd hcmem
            intro x hx
            by_contra hne
            have hxf : x ∈ conns.filter (fun sock => sock ≠ c) :=
              List.mem_filter.mpr ⟨hx, by simpa using hne⟩
            rw [hfnil] at hxf
            simp at hxf
          have honlyc : ∀ c', (c', u, r) ∈ regs → c' = c := by
            intro c' h
            have h2 := hgone c' h
            rw [hconnseq] at h2
            simpa using h2
          by_cases hre : (alErase u roomUsers).isEmpty = true
          · -- the room empties too: the room entry is erased
            have hrooms : (removeUser c s).rooms = alErase r s.rooms := by
              simp only [removeUser, hsti, hgr, hgu, hfe, hre, if_true]
            have hrunil : alErase u roomUsers = [] := List.isEmpty_iff.mp hre
            have hruonly : ∀ u'' , u'' ∈ roomUsers.map (fun p => p.1) → u'' = u := by
              rcases (alErase_eq_nil_iff u roomUsers).mp hrunil with h2 | ⟨v, h2⟩
              · exact absurd h2 hrune
              · rw [h2]
                intro u'' hmem
                simpa using hmem
            refine ⟨hrn1, ?_, ?_, ?_, ?_, ?_, ?_, ?_⟩
            · rw [hsti2]; exact hstiNodup1
            · intro c' u' r'
              rw [hsti2]
              exact hstiSound1 c' u' r'
            · rw [hrooms]
              exact nodup_keys_alErase r s.rooms hkn
            · -- roomNone
              intro r'' hget c' u'' hmem
              rw [hrooms] at hget
              have hmem2 := hsub c' u'' r'' hmem
              by_cases hr2 : r'' = r
              · subst r''
                -- every registration in room r is (c, u, r), which was filtered out
                cases hgu2 : alGet u'' roomUsers with
                | none => exact hu0 r roomUsers u'' hgr hgu2 c' hmem2
                | some conns2 =>
                  have hu2 : u'' = u := by
                    have := alGet_isSome_iff u'' roomUsers
                    rw [hgu2] at this
                    exact hruonly u'' (this.mp (by simp))
                  subst hu2
                  have hc2 : c' = c := honlyc c' hmem2
                  subst hc2
                  exact ((hregs1 c' u'' r).mp hmem).2 ⟨rfl, rfl, rfl⟩
              · rw [alGet_alErase_ne hr2] at hget
                exact hr0 r'' hget c' u'' hmem2
            · -- roomSome
              intro r'' ru'' hget
              rw [hrooms] at hget
              by_cases hr2 : r'' = r
              · subst r''
                rw [alGet_alErase_self r s.rooms hkn] at hget
                exact absurd hget (by simp)
              · rw [alGet_alErase_ne hr2] at hget
                exact hr1 r'' ru'' hget
            · -- userNone
              intro r'' ru'' u'' hget hgetu c' hmem
              rw [hrooms] at hget
              by_cases hr2 : r'' = r
              · subst r''
                rw [alGet_alErase_self r s.rooms hkn] at hget
                exact absurd hget (by simp)
              · rw [alGet_alErase_ne hr2] at hget
                exact hu0 r'' ru'' u'' hget hgetu c' (hsub c' u'' r'' hmem)
            · -- userSome
              intro r'' ru'' u'' conns'' hget hgetu
              rw [hrooms] at hget
              by_cases hr2 : r'' = r
              · subst r''
                rw [alGet_alErase_self r s.rooms hkn] at hget
                exact absurd hget (by simp)
              · rw [alGet_alErase_ne hr2] at hget
                obtain ⟨hne2, hnd2, hiff2⟩ := hu1 r'' ru'' u'' conns'' hget hgetu
                refine ⟨hne2, hnd2, ?_⟩
                intro c''
                rw [hiff2 c'', hregs1]
                constructor
                · intro h2
                  exact ⟨h2, fun he => hr2 he.2.2⟩
                · exact fun h2 => h2.1
          · -- the user entry is erased but the room keeps other users
            have hrooms : (removeUser c s).rooms =
                alSet r (alErase u roomUsers) s.rooms := by
              simp only [removeUser, hsti, hgr, hgu, hfe, hre, if_true]
              simp [hre]
            refine ⟨hrn1, ?_, ?_, ?_, ?_, ?_, ?_, ?_⟩
            · rw [hsti2]; exact hstiNodup1
            · intro c' u' r'
              rw [hsti2]
              exact hstiSound1 c' u' r'
            · rw [hrooms]
              exact nodup_keys_alSet r _ s.rooms hkn
            · -- roomNone
              intro r'' hget c' u'' hmem
              rw [hrooms] at hget
              by_cases hr2 : r'' = r
              · subst r''
                rw [alGet_alSet_self] at hget
                exact absurd hget (by simp)
              · rw [alGet_alSet_ne hr2] at hget
                exact hr0 r'' hget c' u'' (hsub c' u'' r'' hmem)
            · -- roomSome
              intro r'' ru'' hget
              rw [hrooms] at hget
              by_cases hr2 : r'' = r
              · subst r''
                rw [alGet_alSet_self, Option.some_inj] at hget
                subst hget
                refine ⟨fun he => hre (by rw [he]; rfl), ?_⟩
                exact nodup_keys_alErase u roomUsers hrund
              · rw [alGet_alSet_ne hr2] at hget
                exact hr1 r'' ru'' hget
            · -- userNone
              intro r'' ru'' u'' hget hgetu c' hmem
              rw [hrooms] at hget
              have hmem2 := hsub c' u'' r'' hmem
              by_cases hr2 : r'' = r
              · subst r''
                rw [alGet_alSet_self, Option.some_inj] at hget
                subst hget
                by_cases hu2 : u'' = u
                · subst u''
                  have hc2 : c' = c := honlyc c' hmem2
                  subst hc2
                  exact ((hregs1 c' u r).mp hmem).2 ⟨rfl, rfl, rfl⟩
                · rw [alGet_alErase_ne hu2] at hgetu
                  exact hu0 r roomUsers u'' hgr hgetu c' hmem2
              · rw [alGet_alSet_ne hr2] at hget
                exact hu0 r'' ru'' u'' hget hgetu c' hmem2
            · -- userSome
              intro r'' ru'' u'' conns'' hget hgetu
              rw [hrooms] at hget
              by_cases hr2 : r'' = r
              · subst r''
                rw [alGet_alSet_self, Option.some_inj] at hget
                subst hget
                by_cases hu2 : u'' = u
                · subst u''
                  rw [alGet_alErase_self u roomUsers hrund] at hgetu
                  exact absurd hgetu (by simp)
                · rw [alGet_alErase_ne hu2] at hgetu
                  obtain ⟨hne2, hnd2, hiff2⟩ := hu1 r roomUsers u'' conns'' hgr hgetu
                  refine ⟨hne2, hnd2, ?_⟩
                  intro c''
                  rw [hiff2 c'', hregs1]
                  constructor
                  · intro h2
                    exact ⟨h2, fun he => hu2 he.2.1⟩
                  · exact fun h2 => h2.1
              · rw [alGet_alSet_ne hr2] at hget
                obtain ⟨hne2, hnd2, hiff2⟩ := hu1 r'' ru'' u'' conns'' hget hgetu
                refine ⟨hne2, hnd2, ?_⟩
                intro c''
                rw [hiff2 c'', hregs1]
                constructor
                · intro h2
                  exact ⟨h2, fun he => hr2 he.2.2⟩
                · exact fun h2 => h2.1
        · -- the user keeps other sockets
          have hrooms : (removeUser c s).rooms =
              alSet r (alSet u (conns.filter (fun sock => sock ≠ c)) roomUsers)
                s.rooms := by
            simp only [removeUser, hsti, hgr, hgu]
            rw [if_neg hfe, if_neg ?_]
            intro he
            exact alSet_ne_nil u (conns.filter (fun sock => sock ≠ c)) roomUsers
              (List.isEmpty_iff.mp he)
          have hfne : conns.filter (fun sock => sock ≠ c) ≠ [] := by
            intro he
            exact hfe (by rw [he]; rfl)
          refine ⟨hrn1, ?_, ?_, ?_, ?_, ?_, ?_, ?_⟩
          · rw [hsti2]; exact hstiNodup1
          · intro c' u' r'
            rw [hsti2]
            exact hstiSound1 c' u' r'
          · rw [hrooms]
            exact nodup_keys_alSet r _ s.rooms hkn
          · -- roomNone
            intro r'' hget c' u'' hmem
            rw [hrooms] at hget
            by_cases hr2 : r'' = r
            · subst r''
              rw [alGet_alSet_self] at hget
              exact absurd hget (by simp)
            · rw [alGet_alSet_ne hr2] at hget
              exact hr0 r'' hget c' u'' (hsub c' u'' r'' hmem)
          · -- roomSome
            intro r'' ru'' hget
            rw [hrooms] at hget
            by_cases hr2 : r'' = r
            · subst r''
              rw [alGet_alSet_self, Option.some_inj] at hget
              subst hget
              exact ⟨alSet_ne_nil _ _ _, nodup_keys_alSet u _ roomUsers hrund⟩
            · rw [alGet_alSet_ne hr2] at hget
              exact hr1 r'' ru'' hget
          · -- userNone
            intro r'' ru'' u'' hget hgetu c' hmem
            rw [hrooms] at hget
            have hmem2 := hsub c' u'' r'' hmem
            by_cases hr2 : r'' = r
            · subst r''
              rw [alGet_alSet_self, Option.some_inj] at hget
              subst hget
              by_cases hu2 : u'' = u
              · subst u''
                rw [alGet_alSet_self] at hgetu
                exact absurd hgetu (by simp)
              · rw [alGet_alSet_ne hu2] at hgetu
                exact hu0 r roomUsers u'' hgr hgetu c' hmem2
            · rw [alGet_alSet_ne hr2] at hget
              exact hu0 r'' ru'' u'' hget hgetu c' hmem2
          · -- userSome
            intro r'' ru'' u'' conns'' hget hgetu
            rw [hrooms] at hget
            by_cases hr2 : r'' = r
            · subst r''
              rw [alGet_alSet_self, Option.some_inj] at hget
              subst hget
              by_cases hu2 : u'' = u
              · subst u''
                rw [alGet_alSet_self, Option.some_inj] at hgetu
                subst hgetu
                refine ⟨hfne, hcnd.filter _, ?_⟩
                intro c''
                rw [hfiltermem c'', hciff c'', hregs1]
                constructor
                · rintro ⟨h2, h3⟩
                  exact ⟨h2, fun he => h3 he.1⟩
                · rintro ⟨h2, h3⟩
                  refine ⟨h2, ?_⟩
                  intro he
                  subst he
                  exact h3 ⟨rfl, rfl, rfl⟩
              · rw [alGet_alSet_ne hu2] at hgetu
                obtain ⟨hne2, hnd2, hiff2⟩ := hu1 r roomUsers u'' conns'' hgr hgetu
                refine ⟨hne2, hnd2, ?_⟩
                intro c''
                rw [hiff2 c'', hregs1]
                constructor
                · intro h2
                  exact ⟨h2, fun he => hu2 he.2.1⟩
                · exact fun h2 => h2.1
            · rw [alGet_alSet_ne hr2] at hget
              obtain ⟨hne2, hnd2, hiff2⟩ := hu1 r'' ru'' u'' conns'' hget hgetu
              refine ⟨hne2, hnd2, ?_⟩
              intro c''
              rw [hiff2 c'', hregs1]
              constructor
              · intro h2
                exact ⟨h2, fun he => hr2 he.2.2⟩
              · exact fun h2 => h2.1



/-- The invariant holds along any well-formed operation sequence. -/
lemma inv_runOps (ops : List RegOp) : ∀ (regs : Regs) (s : UserStore),
    StoreInv regs s → freshAdds ops regs = true →
    StoreInv (liveRegs ops regs) (runOps ops s) := by
  induction ops with
  | nil =>
    intro regs s hInv _
    simpa [liveRegs, runOps] using hInv
  | cons op rest ih =>
    intro regs s hInv hfresh
    cases op with
    | add c u r =>
      simp only [freshAdds, Bool.and_eq_true] at hfresh
      obtain ⟨h1, h2⟩ := hfresh
      have hf : ∀ p ∈ regs, p.1 ≠ c := by
        intro p hp he
        have h3 : regs.any (fun p => decide (p.1 = c)) = false := by
          simpa using h1
        have h4 := List.any_eq_false.mp h3 p hp
        simp at h4
        exact h4 he
      simp only [liveRegs, runOps]
      exact ih _ _ (inv_add regs s c u r hInv hf) h2
    | remove c =>
      simp only [freshAdds] at hfresh
      simp only [liveRegs, runOps]
      exact ih _ _ (inv_remove regs s c hInv) hfresh

/-- From the invariant: online membership and room retention each mirror
the ledger of live registrations. -/
lemma StoreInv.onlineIff (regs : Regs) (s : UserStore) (hInv : StoreInv regs s) :
    (∀ r u, u ∈ getOnlineUsersInRoom r s ↔ ∃ c, (c, u, r) ∈ regs) ∧
    (∀ r, (alGet r s.rooms).isSome ↔ ∃ c u, (c, u, r) ∈ regs) := by
  obtain ⟨hrn, hsn, hss, hkn, hr0, hr1, hu0, hu1⟩ := hInv
  constructor
  · intro r u
    cases hgr : alGet r s.rooms with
    | none =>
      simp only [getOnlineUsersInRoom, hgr, Option.getD_none, List.map_nil,
        List.not_mem_nil, false_iff]
      rintro ⟨c, hc⟩
      exact hr0 r hgr c u hc
    | some roomUsers =>
      simp only [getOnlineUsersInRoom, hgr, Option.getD_some]
      constructor
      · intro hmem
        have h2 : (alGet u roomUsers).isSome := (alGet_isSome_iff u roomUsers).mpr hmem
        cases hgu : alGet u roomUsers with
        | none => rw [hgu] at h2; simp at h2
        | some conns =>
          obtain ⟨hne, hnd, hiff⟩ := hu1 r roomUsers u conns hgr hgu
          obtain ⟨c0, crest, hc0⟩ := List.exists_cons_of_ne_nil hne
          exact ⟨c0, (hiff c0).mp (by rw [hc0]; exact List.mem_cons_self _ _)⟩
      · rintro ⟨c, hc⟩
        cases hgu : alGet u roomUsers with
        | none => exact absurd hc (hu0 r roomUsers u hgr hgu c)
        | some conns =>
          exact (alGet_isSome_iff u roomUsers).mp (by rw [hgu]; rfl)
  · intro r
    cases hgr : alGet r s.rooms with
    | none =>
      simp only [hgr, Option.isSome_none, Bool.false_eq_true, false_iff]
      rintro ⟨c, u, hc⟩
      exact hr0 r hgr c u hc
    | some roomUsers =>
      simp only [hgr, Option.isSome_some, true_iff]
      obtain ⟨hne, hnd⟩ := hr1 r roomUsers hgr
      obtain ⟨p, prest, hru⟩ := List.exists_cons_of_ne_nil hne
      have hg2 : alGet p.1 roomUsers = some p.2 := by
        rw [hru]
        rcases p with ⟨u0, conns0⟩
        simp [alGet]
      obtain ⟨hne2, hnd2, hiff2⟩ := hu1 r roomUsers p.1 p.2 hgr hg2
      obtain ⟨c0, crest, hc0⟩ := List.exists_cons_of_ne_nil hne2
      exact ⟨c0, p.1, (hiff2 c0).mp (by rw [hc0]; exact List.mem_cons_self _ _)⟩

/-- C10: after any well-formed sequence of `addUserToRoom` / `removeUser`
calls (each add attaching a socket not currently registered), a user id
appears in `getOnlineUsersInRoom` exactly when at least one of their
registered sockets for that room has not been removed, and a room id is
still present in the registry exactly when some user still has a registered
socket in it — the registry never retains empty user or room entries. -/
theorem presence_registry_no_empty_entries (ops : List RegOp)
    (h : freshAdds ops [] = true) :
    (∀ r u, u ∈ getOnlineUsersInRoom r (runOps ops emptyStore) ↔
      ∃ c, (c, u, r) ∈ liveRegs ops []) ∧
    (∀ r, (alGet r (runOps ops emptyStore).rooms).isSome ↔
      ∃ c u, (c, u, r) ∈ liveRegs ops []) :=
  StoreInv.onlineIff _ _ (inv_runOps ops [] emptyStore StoreInv.empty h)

/-- Witness for `presence_registry_no_empty_entries`: two sockets of one
user, one removed — the user is still online through the second socket. -/
theorem presence_registry_no_empty_entries_witness :
    freshAdds [RegOp.add 1 "a" "r1", RegOp.add 2 "a" "r1", RegOp.remove 1] [] = true ∧
    "a" ∈ getOnlineUsersInRoom "r1"
      (runOps [RegOp.add 1 "a" "r1", RegOp.add 2 "a" "r1", RegOp.remove 1]
        emptyStore) := by
  refine ⟨by decide, ?_⟩
  exact ((presence_registry_no_empty_entries
    [RegOp.add 1 "a" "r1", RegOp.add 2 "a" "r1", RegOp.remove 1] (by decide)).1
    "r1" "a").mpr ⟨2, by decide⟩

end AnimoChat
